import Mathlib

/-!
Shallow embedding of src/src/utils.ts (vscode-coder) and verification of its
specification claims.

The module under verification contains a line splitter (onLine), archive
extractors (extractTar, extractZip), temp-directory helpers (tmpdir, clean)
and a process-exit wrapper (wrapExit).  Streams of UTF-8 decoded text are
modelled as lists of characters; a chunked stream is a list of chunks.
-/

namespace VscodeCoder

/-- Model of the JavaScript String.prototype.split with a single-character
separator, as used by onLine via data.split with a newline argument:
splitting the empty string yields one empty segment, and every occurrence of
the separator introduces a segment boundary. -/
def jsSplit (sep : Char) : List Char → List (List Char)
  | [] => [[]]
  | c :: cs => if c = sep then [] :: jsSplit sep cs else (jsSplit sep cs).modifyHead (fun s => c :: s)

/-- One firing of the data handler installed by onLine (utils.ts lines 69-82):
the previous accumulator is prepended to the chunk, the result is split on
newlines, every segment except the last is emitted in order, and the last
segment becomes the new accumulator. -/
def onData (buffer d : List Char) : List (List Char) × List Char :=
  let data := buffer ++ d
  let split := jsSplit '\n' data
  (split.dropLast, split.getLastD [])

/-- Run of onLine over a whole chunked stream starting from accumulator buf:
each chunk fires the data handler, and the end handler (utils.ts line 84)
finally emits whatever is left in the accumulator. -/
def onLineRun : List Char → List (List Char) → List (List Char)
  | buf, [] => [buf]
  | buf, d :: rest => (onData buf d).1 ++ onLineRun (onData buf d).2 rest

/-- The full sequence of strings delivered to the callback by onLine
(utils.ts lines 66-85) on a stream delivered as the given list of chunks:
the accumulator starts empty. -/
def onLineEmits (chunks : List (List Char)) : List (List Char) :=
  onLineRun [] chunks

/-- Join a list of segments with a separator character between consecutive
segments (the inverse direction of jsSplit). -/
def joinSep (sep : Char) : List (List Char) → List Char
  | [] => []
  | [l] => l
  | l :: ls => l ++ sep :: joinSep sep ls

/-- The suffix of a string after its last newline: the final partial segment
of a stream whose content does not end in a newline. -/
def afterLastNewline (s : List Char) : List Char :=
  (s.reverse.takeWhile (fun c => c != '\n')).reverse

/- ### Lemmas about jsSplit -/

lemma jsSplit_ne_nil (sep : Char) (l : List Char) : jsSplit sep l ≠ [] := by
  induction l with
  | nil => simp [jsSplit]
  | cons c cs ih =>
    by_cases h : c = sep
    · simp [jsSplit, h]
    · cases hcs : jsSplit sep cs with
      | nil => exact absurd hcs ih
      | cons s ss => simp [jsSplit, h, hcs]

lemma jsSplit_cons_sep (sep : Char) (cs : List Char) :
    jsSplit sep (sep :: cs) = [] :: jsSplit sep cs := by
  simp [jsSplit]


lemma jsSplit_cons_of_ne (sep c : Char) (h : c ≠ sep) (cs s : List Char)
    (ss : List (List Char)) (hcs : jsSplit sep cs = s :: ss) :
    jsSplit sep (c :: cs) = (c :: s) :: ss := by
  simp [jsSplit, h, hcs]

lemma jsSplit_no_sep (sep : Char) (l : List Char) (h : sep ∉ l) : jsSplit sep l = [l] := by
  induction l with
  | nil => simp [jsSplit]
  | cons c cs ih =>
    have hc : c ≠ sep := fun hc => h (hc ▸ List.mem_cons_self c cs)
    have hcs : sep ∉ cs := fun hm => h (List.mem_cons_of_mem c hm)
    rw [jsSplit_cons_of_ne sep c hc cs cs [] (ih hcs)]

lemma jsSplit_forall_no_sep (sep : Char) (l : List Char) :
    ∀ x ∈ jsSplit sep l, sep ∉ x := by
  induction l with
  | nil => simp [jsSplit]
  | cons c cs ih =>
    cases hcs : jsSplit sep cs with
    | nil => exact absurd hcs (jsSplit_ne_nil sep cs)
    | cons s ss =>
      have hall : ∀ x ∈ s :: ss, sep ∉ x := hcs ▸ ih
      by_cases hc : c = sep
      · rw [hc, jsSplit_cons_sep, hcs]
        intro x hx
        rcases List.mem_cons.mp hx with h1 | h1
        · subst h1; simp
        · exact hall x h1
      · rw [jsSplit_cons_of_ne sep c hc cs s ss hcs]
        intro x hx
        rcases List.mem_cons.mp hx with h1 | h1
        · subst h1
          intro hmem
          rcases List.mem_cons.mp hmem with h2 | h2
          · exact hc h2.symm
          · exact hall s (List.mem_cons_self s ss) h2
        · exact hall x (List.mem_cons_of_mem s h1)

lemma getLastD_mem {α : Type} (l : List α) (d : α) (h : l ≠ []) : l.getLastD d ∈ l := by
  induction l generalizing d with
  | nil => exact absurd rfl h
  | cons a t ih =>
    cases t with
    | nil => simp
    | cons b t2 =>
      rw [List.getLastD_cons]
      exact List.mem_cons_of_mem a (ih a (by simp))

lemma jsSplit_getLastD_no_sep (sep : Char) (l : List Char) :
    sep ∉ (jsSplit sep l).getLastD [] :=
  jsSplit_forall_no_sep sep l _ (getLastD_mem _ _ (jsSplit_ne_nil sep l))

lemma jsSplit_append (sep : Char) (a b : List Char) :
    jsSplit sep (a ++ b) =
      (jsSplit sep a).dropLast ++ jsSplit sep ((jsSplit sep a).getLastD [] ++ b) := by
  induction a with
  | nil => simp [jsSplit]
  | cons c cs ih =>
    cases hcs : jsSplit sep cs with
    | nil => exact absurd hcs (jsSplit_ne_nil sep cs)
    | cons s ss =>
      by_cases hc : c = sep
      · rw [hc, List.cons_append, jsSplit_cons_sep, ih, hcs, jsSplit_cons_sep, hcs,
          List.dropLast_cons₂]
        simp only [List.getLastD_cons, List.cons_append]
      · cases ss with
        | nil =>
          cases hsb : jsSplit sep (s ++ b) with
          | nil => exact absurd hsb (jsSplit_ne_nil sep _)
          | cons u us =>
            have h1 : jsSplit sep (cs ++ b) = u :: us := by
              rw [ih, hcs]
              simpa using hsb
            rw [List.cons_append, jsSplit_cons_of_ne sep c hc _ u us h1,
              jsSplit_cons_of_ne sep c hc cs s [] hcs]
            have h2 : jsSplit sep (c :: (s ++ b)) = (c :: u) :: us :=
              jsSplit_cons_of_ne sep c hc (s ++ b) u us hsb
            simp [h2]
        | cons s2 ss2 =>
          have h1 : jsSplit sep (cs ++ b) =
              s :: ((s2 :: ss2).dropLast ++ jsSplit sep ((s2 :: ss2).getLastD s ++ b)) := by
            rw [ih, hcs, List.dropLast_cons₂, List.getLastD_cons, List.cons_append]
          rw [List.cons_append, jsSplit_cons_of_ne sep c hc _ _ _ h1,
            jsSplit_cons_of_ne sep c hc cs s (s2 :: ss2) hcs, List.dropLast_cons₂]
          simp only [List.getLastD_cons, List.cons_append]

lemma dropLast_append_getLastD {α : Type} (l : List α) (d : α) (h : l ≠ []) :
    l.dropLast ++ [l.getLastD d] = l := by
  induction l generalizing d with
  | nil => exact absurd rfl h
  | cons a t ih =>
    cases t with
    | nil => simp
    | cons b t2 =>
      rw [List.dropLast_cons₂, List.getLastD_cons, List.cons_append, ih a (by simp)]

lemma onLineRun_eq (buf : List Char) (chunks : List (List Char))
    (h : ('\n' : Char) ∉ buf) :
    onLineRun buf chunks = jsSplit '\n' (buf ++ chunks.flatten) := by
  induction chunks generalizing buf with
  | nil =>
    simp [onLineRun, jsSplit_no_sep '\n' buf h]
  | cons d rest ih =>
    have hlast : ('\n' : Char) ∉ (jsSplit '\n' (buf ++ d)).getLastD [] :=
      jsSplit_getLastD_no_sep '\n' (buf ++ d)
    show (onData buf d).1 ++ onLineRun (onData buf d).2 rest = _
    simp only [onData]
    rw [ih _ hlast, ← jsSplit_append]
    simp [List.append_assoc]

lemma onLineEmits_eq (chunks : List (List Char)) :
    onLineEmits chunks = jsSplit '\n' chunks.flatten := by
  simpa using onLineRun_eq [] chunks (by simp)

lemma joinSep_cons_cons (sep : Char) (a b : List Char) (t : List (List Char)) :
    joinSep sep (a :: b :: t) = a ++ sep :: joinSep sep (b :: t) := rfl

lemma joinSep_jsSplit (sep : Char) (l : List Char) :
    joinSep sep (jsSplit sep l) = l := by
  induction l with
  | nil => rfl
  | cons c cs ih =>
    cases hcs : jsSplit sep cs with
    | nil => exact absurd hcs (jsSplit_ne_nil sep cs)
    | cons s ss =>
      by_cases hc : c = sep
      · rw [hc, jsSplit_cons_sep, hcs, joinSep_cons_cons, ← hcs, ih]
        rfl
      · rw [jsSplit_cons_of_ne sep c hc cs s ss hcs]
        cases ss with
        | nil =>
          have h2 : s = cs := by rw [hcs] at ih; exact ih
          show c :: s = c :: cs
          rw [h2]
        | cons s2 ss2 =>
          have h2 : s ++ sep :: joinSep sep (s2 :: ss2) = cs := by
            rw [hcs, joinSep_cons_cons] at ih; exact ih
          rw [joinSep_cons_cons, List.cons_append, h2]

lemma afterLastNewline_concat (s : List Char) (c : Char) :
    afterLastNewline (s ++ [c]) = if c = '\n' then [] else afterLastNewline s ++ [c] := by
  unfold afterLastNewline
  rw [List.reverse_append]
  by_cases hc : c = '\n'
  · simp [hc, List.takeWhile_cons]
  · simp [hc, List.takeWhile_cons]

lemma jsSplit_concat_sep (sep : Char) (l : List Char) (h : sep ∉ l) :
    jsSplit sep (l ++ [sep]) = [l, []] := by
  induction l with
  | nil => simp [jsSplit]
  | cons x xs ih =>
    have hx : x ≠ sep := fun hx => h (hx ▸ List.mem_cons_self x xs)
    have hxs : sep ∉ xs := fun hm => h (List.mem_cons_of_mem x hm)
    rw [List.cons_append, jsSplit_cons_of_ne sep x hx (xs ++ [sep]) xs [[]] (ih hxs)]

lemma jsSplit_getLastD_concat (s : List Char) (c : Char) :
    (jsSplit '\n' (s ++ [c])).getLastD [] =
      if c = '\n' then [] else (jsSplit '\n' s).getLastD [] ++ [c] := by
  rw [jsSplit_append '\n' s [c]]
  have hns : ('\n' : Char) ∉ (jsSplit '\n' s).getLastD [] := jsSplit_getLastD_no_sep '\n' s
  by_cases hc : c = '\n'
  · rw [hc, jsSplit_concat_sep '\n' _ hns]
    rw [show (jsSplit '\n' s).dropLast ++ [(jsSplit '\n' s).getLastD [], []] =
        ((jsSplit '\n' s).dropLast ++ [(jsSplit '\n' s).getLastD []]) ++ [([] : List Char)] by simp]
    simp [List.getLastD_concat]
  · have hnc : ('\n' : Char) ∉ (jsSplit '\n' s).getLastD [] ++ [c] := by
      intro hm
      rcases List.mem_append.mp hm with h1 | h1
      · exact hns h1
      · simp at h1
        exact hc h1.symm
    rw [jsSplit_no_sep '\n' _ hnc]
    simp [hc, List.getLastD_concat]

lemma jsSplit_getLastD_eq_afterLastNewline (s : List Char) :
    (jsSplit '\n' s).getLastD [] = afterLastNewline s := by
  induction s using List.reverseRecOn with
  | nil => simp [jsSplit, afterLastNewline]
  | append_singleton t c ih =>
    rw [jsSplit_getLastD_concat, afterLastNewline_concat, ih]

lemma afterLastNewline_ne_nil (s : List Char) (h1 : s ≠ [])
    (h2 : s.getLastD '\n' ≠ '\n') : afterLastNewline s ≠ [] := by
  rcases List.eq_nil_or_concat s with h | ⟨t, c, hs⟩
  · exact absurd h h1
  · rw [List.concat_eq_append] at hs
    subst hs
    have hc : c ≠ '\n' := by
      rw [List.getLastD_concat] at h2
      exact h2
    rw [afterLastNewline_concat]
    simp [hc]

/- ### Claims about the line splitter -/

/-- C1: for every byte stream content and for every way of partitioning that
content into data chunks, the sequence of lines delivered to the callback by
onLine is the same: the emitted line sequence is a function of the
concatenated content only, not of chunk boundaries. -/
theorem onLine_chunking_invariant (c1 c2 : List (List Char))
    (h : c1.flatten = c2.flatten) : onLineEmits c1 = onLineEmits c2 := by
  rw [onLineEmits_eq, onLineEmits_eq, h]

/-- Witness for C1 at two concrete chunkings of the same content. -/
theorem onLine_chunking_invariant_witness :
    [['a', '\n'], ['b']].flatten = [['a'], ['\n', 'b']].flatten ∧
    onLineEmits [['a', '\n'], ['b']] = onLineEmits [['a'], ['\n', 'b']] :=
  ⟨by decide, onLine_chunking_invariant [['a', '\n'], ['b']] [['a'], ['\n', 'b']] (by decide)⟩

/-- C4: when the stream ends, onLine invokes the callback exactly once with
the accumulator contents: the emitted sequence is never empty, a zero-byte
stream yields exactly one callback carrying the empty string, and a stream
whose content is nonempty and does not end in a newline delivers its final
partial segment, exactly once, as the last callback. -/
theorem onLine_end_flush (chunks : List (List Char)) :
    onLineEmits chunks ≠ [] ∧
    (chunks.flatten = [] → onLineEmits chunks = [[]]) ∧
    (chunks.flatten.getLastD '\n' ≠ '\n' → chunks.flatten ≠ [] →
      onLineEmits chunks =
        (jsSplit '\n' chunks.flatten).dropLast ++ [afterLastNewline chunks.flatten] ∧
      afterLastNewline chunks.flatten ≠ []) := by
  refine ⟨?_, ?_, ?_⟩
  · rw [onLineEmits_eq]
    exact jsSplit_ne_nil '\n' chunks.flatten
  · intro h
    rw [onLineEmits_eq, h]
    rfl
  · intro h2 h1
    constructor
    · rw [onLineEmits_eq, ← jsSplit_getLastD_eq_afterLastNewline,
        dropLast_append_getLastD _ _ (jsSplit_ne_nil '\n' chunks.flatten)]
    · exact afterLastNewline_ne_nil _ h1 h2

/-- Witness for C4 at a zero-byte stream and at a one-chunk stream whose
content does not end in a newline. -/
theorem onLine_end_flush_witness :
    onLineEmits [] = [[]] ∧
    onLineEmits [['a']] =
      (jsSplit '\n' [['a']].flatten).dropLast ++ [afterLastNewline [['a']].flatten] :=
  ⟨(onLine_end_flush []).2.1 rfl,
   ((onLine_end_flush [['a']]).2.2 (by decide) (by decide)).1⟩

/-- C5 counterexample: on the stream whose full content is the six characters
of "a\nb\nc\n", delivered as one chunk, onLine does not deliver exactly the
three lines a, b, c: the end-of-stream flush delivers a fourth, empty string
to the callback. -/
theorem onLine_abc_counterexample :
    onLineEmits [['a', '\n', 'b', '\n', 'c', '\n']] ≠ [['a'], ['b'], ['c']] := by
  decide

/-- C5 amended: on every stream whose full content is "a\nb\nc\n", onLine
delivers the lines a, b, c in that order, followed by exactly one empty
string coming from the single end-of-stream flush of the empty remainder. -/
theorem onLine_abc_lines (chunks : List (List Char))
    (h : chunks.flatten = ['a', '\n', 'b', '\n', 'c', '\n']) :
    onLineEmits chunks = [['a'], ['b'], ['c'], []] := by
  rw [onLineEmits_eq, h]
  decide

/-- Witness for the amended C5 at the single-chunk delivery. -/
theorem onLine_abc_lines_witness :
    onLineEmits [['a', '\n', 'b', '\n', 'c', '\n']] = [['a'], ['b'], ['c'], []] :=
  onLine_abc_lines [['a', '\n', 'b', '\n', 'c', '\n']] (by decide)

/-- C10: the sequence of strings onLine delivers, joined with a newline
between consecutive entries, equals the concatenation of all data chunks
received before the end of the stream, and no delivered string contains a
newline character: a lossless round trip between stream content and emitted
lines. -/
theorem onLine_lossless (chunks : List (List Char)) :
    joinSep '\n' (onLineEmits chunks) = chunks.flatten ∧
    ∀ l ∈ onLineEmits chunks, ('\n' : Char) ∉ l := by
  rw [onLineEmits_eq]
  exact ⟨joinSep_jsSplit '\n' chunks.flatten, jsSplit_forall_no_sep '\n' chunks.flatten⟩

/-- Witness for C10 at a concrete chunked stream. -/
theorem onLine_lossless_witness :
    joinSep '\n' (onLineEmits [['a', '\n'], ['b']]) = [['a', '\n'], ['b']].flatten ∧
    ('\n' : Char) ∉ ['a'] :=
  ⟨(onLine_lossless [['a', '\n'], ['b']]).1,
   (onLine_lossless [['a', '\n'], ['b']]).2 ['a'] (by decide)⟩

/- ### Archive extractor: tar path (utils.ts lines 125-145) -/

/-- Outcome signalled by a terminal stream stage: its finish event, or an
error event carrying an error. -/
inductive TermEvent
  | finish
  | errored (e : String)
deriving DecidableEq

/-- State of the stages wired by extractTar: whether the gunzip stage and
the tar-extraction stage have been destroyed (and with which error), and
whether the promise awaited at utils.ts lines 138-142 has settled.  A
promise settles at most once, so a later settlement attempt keeps the first
outcome. -/
structure PipeState where
  decompressDestroyedWith : Option String
  destinationDestroyedWith : Option String
  settled : Option (Except String Unit)

/-- The pipeline state before any event has fired. -/
def initialPipe : PipeState := ⟨none, none, none⟩

/-- Handler attached at utils.ts line 139: an error event on the
tar-extraction stage rejects the awaited promise with that error, first
settlement winning. -/
def destinationOnError (e : String) (st : PipeState) : PipeState :=
  { st with settled := some (st.settled.getD (Except.error e)) }

/-- Handler attached at utils.ts line 140: the finish event on the
tar-extraction stage resolves the awaited promise, first settlement
winning. -/
def destinationOnFinish (st : PipeState) : PipeState :=
  { st with settled := some (st.settled.getD (Except.ok ())) }

/-- Destroying the tar-extraction stage with an error: per Node stream
semantics, destroy with an error marks the stage destroyed and emits its
error event, which runs the handler of utils.ts line 139. -/
def destroyDestination (e : String) (st : PipeState) : PipeState :=
  destinationOnError e
    { st with destinationDestroyedWith := some (st.destinationDestroyedWith.getD e) }

/-- Handler attached at utils.ts line 136: an error event on the gunzip
stage destroys the tar-extraction stage with that error. -/
def decompressOnError (e : String) (st : PipeState) : PipeState :=
  destroyDestination e st

/-- Destroying the gunzip stage with an error: destroy with an error marks
the stage destroyed and emits its error event, which runs the handler of
utils.ts line 136. -/
def destroyDecompress (e : String) (st : PipeState) : PipeState :=
  decompressOnError e { st with decompressDestroyedWith := some (st.decompressDestroyedWith.getD e) }

/-- Handler attached at utils.ts line 132: an error event on the input
stream destroys the gunzip stage with that error. -/
def responseOnError (e : String) (st : PipeState) : PipeState :=
  destroyDecompress e st

/-- C3: in extractTar every upstream error propagates by destroying the next
stage with that same error: an input-stream error destroys the gunzip stage
with that error and, through the gunzip error handler, the tar-extraction
stage as well; a gunzip error destroys the tar-extraction stage; after an
upstream failure no downstream stage is left waiting, and the awaited
promise is rejected with that error. -/
theorem extractTar_error_cascade (e : String) :
    (responseOnError e initialPipe).decompressDestroyedWith = some e ∧
    (responseOnError e initialPipe).destinationDestroyedWith = some e ∧
    (responseOnError e initialPipe).settled = some (Except.error e) ∧
    (decompressOnError e initialPipe).destinationDestroyedWith = some e ∧
    (decompressOnError e initialPipe).settled = some (Except.error e) :=
  ⟨rfl, rfl, rfl, rfl, rfl⟩

/-- Result model of extractTar (utils.ts lines 125-145): the directory
creation is awaited first, so its failure rejects the whole call; then the
call awaits the promise wired to the terminal tar-extraction stage and
returns downloadPath on success. -/
def extractTar (mkdirRes : Except String Unit) (destEv : TermEvent)
    (downloadPath : String) : Except String String :=
  match mkdirRes with
  | Except.error e => Except.error e
  | Except.ok _ =>
    match destEv with
    | TermEvent.finish => Except.ok downloadPath
    | TermEvent.errored e => Except.error e

/-- C6: extractTar resolves exactly when the terminal tar-extraction stage
signals finish, and in that case resolves with the very destination path it
was given; if the terminal stage signals an error, in particular one
propagated from an upstream stage, the call rejects with that error. -/
theorem extractTar_completion (ev : TermEvent) (p q : String) :
    (extractTar (Except.ok ()) ev p = Except.ok q ↔ (ev = TermEvent.finish ∧ q = p)) ∧
    (∀ e, extractTar (Except.ok ()) (TermEvent.errored e) p = Except.error e) := by
  constructor
  · cases ev with
    | finish => simp [extractTar, eq_comm]
    | errored e => simp [extractTar]
  · intro e
    rfl

/-- Witness for C6: at a concrete destination, a finish event of the
terminal stage makes extractTar resolve with that same destination. -/
theorem extractTar_completion_witness :
    extractTar (Except.ok ()) TermEvent.finish ("d") = Except.ok ("d") :=
  ((extractTar_completion TermEvent.finish ("d") ("d")).1).mpr ⟨rfl, rfl⟩

/-- The steps of the body of extractTar in program order (utils.ts lines
126-141): pause the input stream, await creation of the destination
directory, create the gunzip stage, pipe the input into it, attach the
input-stream error handler, create the tar-extraction stage, pipe gunzip
into it, attach the gunzip error handler, attach the terminal error and
finish handlers, and only then resume the input stream. -/
inductive TarStep
  | pauseResponse
  | mkdirDownloadPath
  | createGunzip
  | pipeResponseToDecompress
  | attachResponseErrorHandler
  | createTarExtract
  | pipeDecompressToDestination
  | attachDecompressErrorHandler
  | attachDestinationErrorHandler
  | attachDestinationFinishHandler
  | resumeResponse
deriving DecidableEq, BEq

/-- The trace of extractTar in source order (utils.ts lines 126-141). -/
def extractTarTrace : List TarStep :=
  [TarStep.pauseResponse, TarStep.mkdirDownloadPath, TarStep.createGunzip,
   TarStep.pipeResponseToDecompress, TarStep.attachResponseErrorHandler,
   TarStep.createTarExtract, TarStep.pipeDecompressToDestination,
   TarStep.attachDecompressErrorHandler, TarStep.attachDestinationErrorHandler,
   TarStep.attachDestinationFinishHandler, TarStep.resumeResponse]

/-- C7: in extractTar the input stream is paused on entry and resumed only
after the destination directory has been created and both downstream stages
are piped with their error handlers attached: pausing is the first step,
resuming happens exactly once and is the last step, and the directory
creation, both pipe hookups and every handler attachment strictly precede
the resume, so no bytes flow before the destination directory exists and all
listeners are wired. -/
theorem extractTar_pause_resume_order :
    extractTarTrace.head? = some TarStep.pauseResponse ∧
    extractTarTrace.getLast? = some TarStep.resumeResponse ∧
    extractTarTrace.count TarStep.resumeResponse = 1 ∧
    extractTarTrace.indexOf TarStep.mkdirDownloadPath <
      extractTarTrace.indexOf TarStep.resumeResponse ∧
    extractTarTrace.indexOf TarStep.pipeResponseToDecompress <
      extractTarTrace.indexOf TarStep.resumeResponse ∧
    extractTarTrace.indexOf TarStep.attachResponseErrorHandler <
      extractTarTrace.indexOf TarStep.resumeResponse ∧
    extractTarTrace.indexOf TarStep.pipeDecompressToDestination <
      extractTarTrace.indexOf TarStep.resumeResponse ∧
    extractTarTrace.indexOf TarStep.attachDecompressErrorHandler <
      extractTarTrace.indexOf TarStep.resumeResponse ∧
    extractTarTrace.indexOf TarStep.attachDestinationErrorHandler <
      extractTarTrace.indexOf TarStep.resumeResponse ∧
    extractTarTrace.indexOf TarStep.attachDestinationFinishHandler <
      extractTarTrace.indexOf TarStep.resumeResponse := by
  decide

/- ### Archive extractor: zip path (utils.ts lines 150-173) -/

/-- Observable outcome of one extractZip call: the settled result of the
returned promise and whether the staging-directory cleanup (the call to
clean at utils.ts line 170) ran before the call settled. -/
structure ZipOutcome where
  result : Except String String
  cleanRan : Bool

/-- Model of extractZip (utils.ts lines 150-173) as a function of the
outcomes of its awaited steps: creating downloadPath, creating the staging
temp directory, the write stream settling (finish, or an error, including a
response-stream error forwarded into the write sink by the handler at line
160), the whole-file unzip, and the final clean.  Every await sequences the
steps: a rejected await makes the call reject with that error at once,
skipping all later steps; cleanRan records whether the clean step was
reached. -/
def extractZip (mkdirRes : Except String Unit) (tmpRes : Except String String)
    (writeEv : TermEvent) (unzipRes : Except String Unit)
    (cleanRes : Except String Unit) (downloadPath : String) : ZipOutcome :=
  match mkdirRes with
  | Except.error e => ⟨Except.error e, false⟩
  | Except.ok _ =>
    match tmpRes with
    | Except.error e => ⟨Except.error e, false⟩
    | Except.ok _ =>
      match writeEv with
      | TermEvent.errored e => ⟨Except.error e, false⟩
      | TermEvent.finish =>
        match unzipRes with
        | Except.error e => ⟨Except.error e, false⟩
        | Except.ok _ =>
          match cleanRes with
          | Except.error e => ⟨Except.error e, true⟩
          | Except.ok _ => ⟨Except.ok downloadPath, true⟩

/-- C2 counterexample: when the write stream fails, extractZip rejects with
that error but the staging-directory cleanup never runs, so the staging
directory still exists when the call settles: the claim that cleanup has run
on every outcome before the promise settles is false on the code. -/
theorem extractZip_cleanup_counterexample :
    (extractZip (Except.ok ()) (Except.ok ("tmp")) (TermEvent.errored ("boom"))
        (Except.ok ()) (Except.ok ()) ("dest")).result = Except.error ("boom") ∧
    (extractZip (Except.ok ()) (Except.ok ("tmp")) (TermEvent.errored ("boom"))
        (Except.ok ()) (Except.ok ()) ("dest")).cleanRan = false :=
  ⟨rfl, rfl⟩

/-- C2 amended: the staging cleanup runs exactly on the success path: every
call that resolves has run cleanup first (and resolves with downloadPath
only after it), while a write error or an unzip error makes the call reject
with that underlying error without the cleanup step running, leaking the
staging directory. -/
theorem extractZip_cleanup (t p e : String) (unzipRes cleanRes : Except String Unit) :
    (∀ writeEv : TermEvent,
      (extractZip (Except.ok ()) (Except.ok t) writeEv unzipRes cleanRes p).result =
          Except.ok p →
        (extractZip (Except.ok ()) (Except.ok t) writeEv unzipRes cleanRes p).cleanRan = true) ∧
    extractZip (Except.ok ()) (Except.ok t) (TermEvent.errored e) unzipRes cleanRes p =
      ⟨Except.error e, false⟩ ∧
    extractZip (Except.ok ()) (Except.ok t) TermEvent.finish (Except.error e) cleanRes p =
      ⟨Except.error e, false⟩ ∧
    extractZip (Except.ok ()) (Except.ok t) TermEvent.finish (Except.ok ()) (Except.ok ()) p =
      ⟨Except.ok p, true⟩ := by
  refine ⟨?_, rfl, rfl, rfl⟩
  intro writeEv h
  cases writeEv with
  | errored e2 => simp [extractZip] at h
  | finish =>
    cases unzipRes with
    | error e2 => simp [extractZip] at h
    | ok _ =>
      cases cleanRes with
      | error e2 => simp [extractZip] at h
      | ok _ => rfl

/-- Witness for the amended C2: a concrete successful call has run
cleanup. -/
theorem extractZip_cleanup_witness :
    (extractZip (Except.ok ()) (Except.ok ("tmp")) TermEvent.finish (Except.ok ())
        (Except.ok ()) ("dest")).cleanRan = true :=
  (extractZip_cleanup ("tmp") ("dest") ("e") (Except.ok ()) (Except.ok ())).1 TermEvent.finish rfl

/- ### Temp directory cleanup (utils.ts lines 108-111) -/

/-- A filesystem path, as a list of segments. -/
abbrev FsPath := List String

/-- Whether path p lies at or below directory dir. -/
def isUnder (dir p : FsPath) : Bool := decide (p.take dir.length = dir)

/-- Model of the Node primitive fs.promises.rmdir with the recursive option,
as called by clean: it removes every path at or below dir, and per its
documented recursive-mode semantics it does not report an error when the
path does not exist. -/
def rmdirRecursive (fs : List FsPath) (dir : FsPath) : Except String (List FsPath) :=
  Except.ok (fs.filter (fun p => !(isUnder dir p)))

/-- The directory clean operates on (utils.ts line 109): the system temp
directory followed by the segments coder and name. -/
def cleanTarget (tmp : FsPath) (name : String) : FsPath := tmp ++ ["coder", name]

/-- Model of clean (utils.ts lines 108-111): recursively delete the
coder-namespaced temp directory for name. -/
def clean (fs : List FsPath) (tmp : FsPath) (name : String) : Except String (List FsPath) :=
  rmdirRecursive fs (cleanTarget tmp name)

/-- C8: for every name, clean recursively deletes the coder temp directory
for that name, leaving no path under it, and on a filesystem where that
directory does not exist it succeeds and leaves the filesystem unchanged:
cleaning a never-created namespace is idempotent and does not fail. -/
theorem clean_removes_and_tolerates_absence (fs : List FsPath) (tmp : FsPath) (name : String) :
    (∃ fs2, clean fs tmp name = Except.ok fs2 ∧
      ∀ p ∈ fs2, isUnder (cleanTarget tmp name) p = false) ∧
    ((∀ p ∈ fs, isUnder (cleanTarget tmp name) p = false) →
      clean fs tmp name = Except.ok fs) := by
  constructor
  · refine ⟨_, rfl, ?_⟩
    intro p hp
    have hmem := List.of_mem_filter hp
    simpa using hmem
  · intro h
    unfold clean rmdirRecursive
    congr 1
    apply List.filter_eq_self.mpr
    intro p hp
    simp [h p hp]

/-- Witness for C8 on a filesystem that never contained the namespace. -/
theorem clean_witness :
    clean [["other"]] ["tmp"] ("n") = Except.ok [["other"]] :=
  (clean_removes_and_tolerates_absence [["other"]] ["tmp"] ("n")).2 (by decide)

/- ### Process exit wrapper (utils.ts lines 92-103) -/

/-- The event that settles the promise of wrapExit: the process error event
(for example a spawn failure such as ENOENT), or the exit event with its
exit code (absent when the process was terminated by a signal). -/
inductive ProcEvent
  | errored (e : String)
  | exited (code : Option Int)
deriving DecidableEq

/-- An error carried by a wrapExit rejection: the spawn error from the error
event, or an error recording the spawn file and the failing exit code, as
built at utils.ts line 99. -/
inductive ExitError
  | spawnError (e : String)
  | exitCode (spawnfile : String) (code : Option Int)
deriving DecidableEq

/-- Model of wrapExit (utils.ts lines 92-103): the error event rejects with
the spawn error; the exit event resolves when the code equals zero and
otherwise rejects with an error carrying the spawn file and the code. -/
def wrapExit (spawnfile : String) : ProcEvent → Except ExitError Unit
  | ProcEvent.errored e => Except.error (ExitError.spawnError e)
  | ProcEvent.exited code =>
    if code = some 0 then Except.ok ()
    else Except.error (ExitError.exitCode spawnfile code)

/-- C9: wrapExit resolves exactly when the process exits with code zero; an
exit with any other code yields a single rejection whose error carries that
exit code, and an error event (a process that fails to start) yields a
single rejection carrying the spawn error. -/
theorem wrapExit_spec (f : String) (ev : ProcEvent) :
    (wrapExit f ev = Except.ok () ↔ ev = ProcEvent.exited (some 0)) ∧
    (∀ c, c ≠ some 0 →
      wrapExit f (ProcEvent.exited c) = Except.error (ExitError.exitCode f c)) ∧
    (∀ e, wrapExit f (ProcEvent.errored e) = Except.error (ExitError.spawnError e)) := by
  refine ⟨?_, ?_, ?_⟩
  · cases ev with
    | errored e => simp [wrapExit]
    | exited c =>
      by_cases hc : c = some 0
      · simp [wrapExit, hc]
      · simp [wrapExit, hc]
  · intro c hc
    simp [wrapExit, hc]
  · intro e
    rfl

/-- Witness for C9 at exit code one. -/
theorem wrapExit_spec_witness :
    wrapExit ("coder") (ProcEvent.exited (some 1)) =
      Except.error (ExitError.exitCode ("coder") (some 1)) :=
  (wrapExit_spec ("coder") (ProcEvent.exited (some 1))).2.1 (some 1) (by decide)

end VscodeCoder
